import Mathlib

/-!
Verification development for the `simple_kernel.py` module of the
csye6230_simple_os repository.

The Python code is shallowly embedded as follows.

* `MemoryManager` is a structure with `total_memory`, `used_memory` (Python
  ints, modelled as `Int`) and `memory_map`, a process-id-to-size dictionary
  modelled as an insertion-ordered association list with overwrite-in-place
  semantics (`mapInsert` / `mapErase` / `mapLookup`), matching Python `dict`
  behaviour for the operations the code performs.
* Process ids (`uuid.uuid4()` strings) are modelled as `Nat`, generated
  freshly from a counter carried by the kernel state; interrupt handler
  objects (Python callables, compared only by identity) are likewise
  modelled as `Nat` identities, with their runtime behaviour (whether a
  call raises) supplied externally as a function `Nat → Bool`.
* The heap operations are a faithful embedding of CPython's `heapq`
  (`heappush`, `heappop`, `_siftdown`, `_siftup`), written over `List E`
  with explicit fuel (the loops' iteration counts are bounded by the
  stated fuel, which the callers pass generously).  Element comparison is
  a parameter `lt : E → E → Except String Bool` because Python `<` can
  raise: comparing two `(priority, handler)` tuples with equal priorities
  and distinct handler objects raises `TypeError`, which the embedding
  returns as an `Except.error`.  Comparison of `Process` objects
  (`Process.__lt__`) is total.
* Fallible Python code (anything that can raise, including `IndexError`
  from popping an empty list) is embedded in `Except String`.
* Mutation of Python objects held by callers is made visible by returning
  the updated object: e.g. `terminate_current_process` also returns the
  process object it marked `TERMINATED`, since the Python caller retains a
  reference to that mutated object.
* Threads, locks and `time.sleep` are not modelled; one iteration of the
  kernel's `_scheduler_loop` body is embedded as `scheduler_iteration`.
-/

/-- Python `dict` insertion: overwrite in place if the key is present,
otherwise append. -/
def mapInsert (l : List (Nat × Int)) (key : Nat) (v : Int) : List (Nat × Int) :=
  match l with
  | [] => [(key, v)]
  | (k0, v0) :: rest =>
      if k0 = key then (k0, v) :: rest else (k0, v0) :: mapInsert rest key v

/-- Python `del d[key]` (first occurrence; keys are unique in actual use). -/
def mapErase (l : List (Nat × Int)) (key : Nat) : List (Nat × Int) :=
  match l with
  | [] => []
  | (k0, v0) :: rest =>
      if k0 = key then rest else (k0, v0) :: mapErase rest key

/-- Python `d[key]` / `key in d` lookup. -/
def mapLookup (l : List (Nat × Int)) (key : Nat) : Option Int :=
  match l with
  | [] => none
  | (k0, v0) :: rest => if k0 = key then some v0 else mapLookup rest key

/-- State of `MemoryManager` (simple_kernel.py, lines 8-17). -/
structure MemoryManager where
  total_memory : Int
  used_memory : Int
  memory_map : List (Nat × Int)
deriving Repr, DecidableEq

/-- `MemoryManager.__init__` with its default argument `total_memory = 1024`. -/
def MemoryManager.init (total : Int := 1024) : MemoryManager :=
  { total_memory := total, used_memory := 0, memory_map := [] }

/-- `MemoryManager.allocate_memory` (lines 19-32): fails iff
`used_memory + size > total_memory`; otherwise records the mapping and adds
`size` to `used_memory`.  Returns the Python `bool` result together with the
updated manager. -/
def allocate_memory (m : MemoryManager) (process_id : Nat) (size : Int) :
    Bool × MemoryManager :=
  if m.used_memory + size > m.total_memory then
    (false, m)
  else
    (true,
      { m with
        memory_map := mapInsert m.memory_map process_id size
        used_memory := m.used_memory + size })

/-- `MemoryManager.deallocate_memory` (lines 34-42): if the process id is
present, subtract its recorded size from `used_memory` and delete the entry;
otherwise do nothing. -/
def deallocate_memory (m : MemoryManager) (process_id : Nat) : MemoryManager :=
  match mapLookup m.memory_map process_id with
  | none => m
  | some sz =>
      { m with
        used_memory := m.used_memory - sz
        memory_map := mapErase m.memory_map process_id }

/-- `MemoryManager.get_free_memory` (lines 44-50). -/
def get_free_memory (m : MemoryManager) : Int :=
  m.total_memory - m.used_memory

/-- A call against the memory manager, for stating sequence invariants. -/
inductive MemOp where
  | alloc (process_id : Nat) (size : Int)
  | dealloc (process_id : Nat)
deriving Repr, DecidableEq

/-- Apply one memory-manager call (the `Bool` result of `allocate_memory` is
dropped; the claim invariants are about the state). -/
def applyMemOp (m : MemoryManager) (op : MemOp) : MemoryManager :=
  match op with
  | .alloc pid size => (allocate_memory m pid size).2
  | .dealloc pid => deallocate_memory m pid

/-- Run a sequence of memory-manager calls. -/
def runMemOps (m : MemoryManager) : List MemOp → MemoryManager
  | [] => m
  | op :: rest => runMemOps (applyMemOp m op) rest

/-- The spec's §3 invariant: `used == sum(allocation.values())` and
`used <= total`. -/
def memInvariant (m : MemoryManager) : Prop :=
  m.used_memory = (m.memory_map.map (·.2)).sum ∧ m.used_memory ≤ m.total_memory

instance : DecidablePred memInvariant := fun m => by
  unfold memInvariant; infer_instance

/-- Side conditions under which the accounting of `allocate_memory` is sound:
every allocation size is nonnegative and every allocation targets a process
id that is not currently allocated.  (`Bool`-valued so that concrete
sequences can be checked by evaluation.) -/
def validMemOps (m : MemoryManager) : List MemOp → Bool
  | [] => true
  | .alloc pid size :: rest =>
      decide (0 ≤ size) && decide (pid ∉ m.memory_map.map (·.1))
        && validMemOps (allocate_memory m pid size).2 rest
  | .dealloc pid :: rest => validMemOps (deallocate_memory m pid) rest

/-- An interrupt-queue entry: the Python tuple `(priority, handler)`, the
handler being a callable modelled by its identity. -/
abbrev IEntry := Int × Nat

/-- Python `<` on two `(priority, handler)` tuples: lexicographic tuple
comparison.  Distinct priorities decide the comparison; equal priorities
with the identical handler object yield `False`; equal priorities with
distinct handler objects fall through to `handler < handler`, which raises
`TypeError` because functions are not ordered. -/
def cmpEntry (a b : IEntry) : Except String Bool :=
  if a.1 < b.1 then .ok true
  else if b.1 < a.1 then .ok false
  else if a.2 = b.2 then .ok false
  else .error "TypeError"

/-- Process lifecycle states (`'NEW'`, `'READY'`, `'RUNNING'`,
`'TERMINATED'`). -/
inductive PState where
  | NEW
  | READY
  | RUNNING
  | TERMINATED
deriving Repr, DecidableEq

/-- `Process` (lines 82-103): `pid` models the `uuid.uuid4()` string,
`context` is never read or written by the kernel and is omitted. -/
structure Process where
  pid : Nat
  name : String
  priority : Int
  state : PState
deriving Repr, DecidableEq

instance : Inhabited Process :=
  ⟨{ pid := 0, name := "", priority := 0, state := .NEW }⟩

/-- `Process.__lt__` (lines 96-103): compares priorities; total, never
raises. -/
def ltProcess (a b : Process) : Except String Bool :=
  .ok (decide (a.priority < b.priority))

/-- CPython `heapq._siftdown(heap, startpos, pos)` with `newitem` (the value
read from `heap[pos]` at entry) carried explicitly: while `pos > startpos`,
compare `newitem` with the parent; move the parent down while `newitem`
compares smaller; finally store `newitem` at the resting position.  `fuel`
bounds the loop (the callers pass at least `pos + 1`, which always
suffices since `pos` strictly decreases). -/
def siftdownLoop {E : Type} (lt : E → E → Except String Bool) :
    Nat → List E → Nat → Nat → E → Except String (List E)
  | 0, heap, _, pos, v => .ok (heap.set pos v)
  | fuel + 1, heap, startpos, pos, v =>
      if startpos < pos then
        match heap.get? ((pos - 1) / 2) with
        | none => .error "IndexError"
        | some parent => do
            let b ← lt v parent
            if b then
              siftdownLoop lt fuel (heap.set pos parent) startpos ((pos - 1) / 2) v
            else
              .ok (heap.set pos v)
      else
        .ok (heap.set pos v)

/-- CPython `heapq.heappush(heap, item)`: append, then sift the new leaf
toward the root. -/
def heappush {E : Type} (lt : E → E → Except String Bool)
    (heap : List E) (item : E) : Except String (List E) :=
  siftdownLoop lt (heap.length + 1) (heap ++ [item]) 0 heap.length item

/-- The loop of CPython `heapq._siftup(heap, pos)`: repeatedly move the
smaller child up into the hole at `pos` until the hole reaches a childless
position; returns the final hole position and the array.  `fuel` bounds the
loop (`heap.length + 1` always suffices since the child index at least
doubles). -/
def siftupLoop {E : Type} (lt : E → E → Except String Bool) :
    Nat → List E → Nat → Nat → Except String (Nat × List E)
  | 0, heap, pos, _ => .ok (pos, heap)
  | fuel + 1, heap, pos, endpos =>
      if 2 * pos + 1 < endpos then do
        let cp ←
          if 2 * pos + 2 < endpos then
            match heap.get? (2 * pos + 1), heap.get? (2 * pos + 2) with
            | some cl, some cr => do
                let b ← lt cl cr
                pure (if b then 2 * pos + 1 else 2 * pos + 2)
            | _, _ => .error "IndexError"
          else
            pure (2 * pos + 1)
        match heap.get? cp with
        | none => .error "IndexError"
        | some c => siftupLoop lt fuel (heap.set pos c) cp endpos
      else
        .ok (pos, heap)

/-- CPython `heapq._siftup(heap, pos)`: read `newitem = heap[pos]`, bubble
the hole down to a leaf along the minimal-child path, store `newitem`
there, then `_siftdown(heap, pos, finalpos)`. -/
def siftup {E : Type} (lt : E → E → Except String Bool)
    (heap : List E) (pos : Nat) : Except String (List E) :=
  match heap.get? pos with
  | none => .error "IndexError"
  | some newitem => do
      let fh ← siftupLoop lt (heap.length + 1) heap pos heap.length
      siftdownLoop lt (fh.1 + 1) (fh.2.set fh.1 newitem) pos fh.1 newitem

/-- CPython `heapq.heappop(heap)`: pop the last element (raising
`IndexError` on an empty list); if the heap is still non-empty, remember
`heap[0]` as the return value, move the popped last element to the root and
`_siftup` from there. -/
def heappop {E : Type} (lt : E → E → Except String Bool)
    (heap : List E) : Except String (E × List E) :=
  match heap.getLast? with
  | none => .error "IndexError"
  | some lastelt =>
      match heap.dropLast with
      | [] => .ok (lastelt, [])
      | r0 :: rest => do
          let h2 ← siftup lt ((r0 :: rest).set 0 lastelt) 0
          .ok (r0, h2)

/-- `InterruptController.raise_interrupt` (lines 60-68): push the
`(priority, handler)` tuple onto the interrupt queue.  The push itself can
raise `TypeError` when the sift compares the new tuple against a pending
tuple with the same priority. -/
def raise_interrupt (queue : List IEntry) (priority : Int) (handler : Nat) :
    Except String (List IEntry) :=
  heappush cmpEntry queue (priority, handler)

/-- The body of `InterruptController.handle_interrupts` (lines 70-80):
while the queue is non-empty, `heappop` the minimal entry and invoke its
handler; a handler that raises (`hbeh handler = true`) is caught and
reported.  Returns the popped entries in invocation order together with the
ids of the handlers whose invocation raised (i.e. what was reported).
`fuel` bounds the loop (the queue length suffices: each pop removes one
entry). -/
def handleLoop (hbeh : Nat → Bool) :
    Nat → List IEntry → Except String (List IEntry × List Nat)
  | _, [] => .ok ([], [])
  | 0, _ :: _ => .ok ([], [])
  | fuel + 1, e0 :: tl => do
      let pr ← heappop cmpEntry (e0 :: tl)
      let rr ← handleLoop hbeh fuel pr.2
      .ok (pr.1 :: rr.1, (if hbeh pr.1.2 then [pr.1.2] else []) ++ rr.2)

/-- `InterruptController.handle_interrupts`, run to completion on the
current queue contents. -/
def handle_interrupts (hbeh : Nat → Bool) (queue : List IEntry) :
    Except String (List IEntry × List Nat) :=
  handleLoop hbeh queue.length queue

/-- State of `ProcessScheduler` (lines 105-112). -/
structure ProcessScheduler where
  ready_queue : List Process
  running_process : Option Process
deriving Repr, DecidableEq

/-- `ProcessScheduler.__init__`. -/
def ProcessScheduler.init : ProcessScheduler :=
  { ready_queue := [], running_process := none }

/-- `ProcessScheduler.add_process` (lines 114-123): heap-push the process
onto the ready queue and set its state to `'READY'` (the pushed object is
the mutated object, and it is also the returned object). -/
def add_process (s : ProcessScheduler) (process : Process) :
    Except String (Process × ProcessScheduler) := do
  let p := { process with state := PState.READY }
  let rq ← heappush ltProcess s.ready_queue p
  .ok (p, { s with ready_queue := rq })

/-- `ProcessScheduler.schedule_next_process` (lines 125-137): pop the
minimal-priority ready process, mark it `'RUNNING'` and install it as the
running process; with an empty ready queue, clear the running slot.
Returns Python's return value (`self.running_process`) with the new
state. -/
def schedule_next_process (s : ProcessScheduler) :
    Except String (Option Process × ProcessScheduler) :=
  match s.ready_queue with
  | [] => .ok (none, { s with running_process := none })
  | q0 :: qtl => do
      let pr ← heappop ltProcess (q0 :: qtl)
      let p := { pr.1 with state := PState.RUNNING }
      .ok (some p, { ready_queue := pr.2, running_process := some p })

/-- `ProcessScheduler.terminate_current_process` (lines 139-147): if a
process is running, mark it `'TERMINATED'` and clear the running slot.
Python returns `self.running_process` after clearing it, which is always
`None`; the middle component is the terminated process object (the caller
may still hold a reference to it), returned so its mutated state is
observable. -/
def terminate_current_process (s : ProcessScheduler) :
    Option Process × Option Process × ProcessScheduler :=
  match s.running_process with
  | none => (none, none, s)
  | some p =>
      (none, some { p with state := PState.TERMINATED },
        { s with running_process := none })

/-- `Kernel` state (lines 149-162): the three components plus a counter
modelling `uuid.uuid4()` freshness.  The threads and the `running` flag are
not part of the functional state. -/
structure Kernel where
  memory_manager : MemoryManager
  interrupt_queue : List IEntry
  process_scheduler : ProcessScheduler
  next_pid : Nat
deriving Repr, DecidableEq

/-- `Kernel.__init__`: a `MemoryManager()` with its default 1024 bytes,
empty interrupt queue, empty scheduler. -/
def Kernel.init : Kernel :=
  { memory_manager := MemoryManager.init 1024
    interrupt_queue := []
    process_scheduler := ProcessScheduler.init
    next_pid := 0 }

/-- `Kernel.create_process` (lines 190-207): construct a `Process` (a fresh
uuid is drawn regardless of the outcome), attempt the memory allocation; on
success add the process to the scheduler and return it, on failure return
`None` having touched nothing but the failure message. -/
def create_process (kk : Kernel) (name : String) (priority : Int := 0)
    (memory_required : Int := 100) : Except String (Option Process × Kernel) :=
  let process : Process :=
    { pid := kk.next_pid, name := name, priority := priority, state := .NEW }
  let kk := { kk with next_pid := kk.next_pid + 1 }
  let am := allocate_memory kk.memory_manager process.pid memory_required
  if am.1 then do
    let ps ← add_process kk.process_scheduler process
    .ok (some ps.1,
      { kk with memory_manager := am.2, process_scheduler := ps.2 })
  else
    .ok (none, { kk with memory_manager := am.2 })

/-- One iteration of the body of `Kernel._scheduler_loop` (lines 209-223):
`schedule_next_process()`; the time slice (`time.sleep(1)`) elapses;
`terminate_current_process()`; then, only if `running_process` is still
set, deallocate that process's memory.  The first component is the process
object terminated during this iteration (if any), so its final state is
observable. -/
def scheduler_iteration (kk : Kernel) : Except String (Option Process × Kernel) := do
  let sn ← schedule_next_process kk.process_scheduler
  let tc := terminate_current_process sn.2
  let mem' :=
    match tc.2.2.running_process with
    | some rp => deallocate_memory kk.memory_manager rp.pid
    | none => kk.memory_manager
  .ok (tc.2.1, { kk with process_scheduler := tc.2.2, memory_manager := mem' })

/-- The binary-heap shape invariant maintained by `heapq`: every element at
index `j > 0` is not smaller (by key `k`) than its parent at `(j-1)/2`.
States reachable through `heappush`/`heappop` satisfy it. -/
def HeapInv {E : Type} [Inhabited E] (k : E → Int) (l : List E) : Prop :=
  ∀ j, j < l.length → 0 < j →
    k (l.getD ((j - 1) / 2) default) ≤ k (l.getD j default)

instance {E : Type} [Inhabited E] (k : E → Int) (l : List E) :
    Decidable (HeapInv k l) := by
  unfold HeapInv; infer_instance

/-- Loop invariant of `_siftdown` (the upward sift): the array `heap` has a
hole at `pos` whose content is irrelevant and whose intended value `v` is in
hand.  The three parts: every parent/child pair not involving the hole is
ordered; `v` is at most every child of the hole; the hole's parent is at
most every child of the hole. -/
def UpPre {E : Type} [Inhabited E] (k : E → Int) (heap : List E) (pos : Nat)
    (v : E) : Prop :=
  (∀ i j, (j = 2 * i + 1 ∨ j = 2 * i + 2) → j < heap.length → i ≠ pos →
      j ≠ pos → k (heap.getD i default) ≤ k (heap.getD j default)) ∧
  (∀ j, (j = 2 * pos + 1 ∨ j = 2 * pos + 2) → j < heap.length →
      k v ≤ k (heap.getD j default)) ∧
  (∀ j, (j = 2 * pos + 1 ∨ j = 2 * pos + 2) → j < heap.length → 0 < pos →
      k (heap.getD ((pos - 1) / 2) default) ≤ k (heap.getD j default))

/-- Loop invariant of the downward phase of `_siftup`: the array `heap` has
a hole at `pos`; every parent/child pair not involving the hole is ordered,
and the hole's parent (when it exists) is at most every child of the
hole. -/
def DownPre {E : Type} [Inhabited E] (k : E → Int) (heap : List E)
    (pos : Nat) : Prop :=
  (∀ i j, (j = 2 * i + 1 ∨ j = 2 * i + 2) → j < heap.length → i ≠ pos →
      j ≠ pos → k (heap.getD i default) ≤ k (heap.getD j default)) ∧
  (∀ j, (j = 2 * pos + 1 ∨ j = 2 * pos + 2) → j < heap.length → 0 < pos →
      k (heap.getD ((pos - 1) / 2) default) ≤ k (heap.getD j default))

/-- `lt` computes the strict comparison of the keys `k` on all pairs drawn
from `M`. -/
def CmpOk {E : Type} (lt : E → E → Except String Bool) (k : E → Int)
    (M : List E) : Prop :=
  ∀ x ∈ M, ∀ y ∈ M, lt x y = .ok (decide (k x < k y))

/-! ### Helper lemmas: list indexing, permutations, index arithmetic -/

theorem getD_set_self {E : Type} (l : List E) (i : Nat) (a d : E)
    (h : i < l.length) : (l.set i a).getD i d = a := by
  rw [List.getD_eq_getElem?_getD, List.getElem?_set_self h]
  rfl

theorem getD_set_ne {E : Type} (l : List E) {i j : Nat} (a d : E)
    (h : i ≠ j) : (l.set i a).getD j d = l.getD j d := by
  rw [List.getD_eq_getElem?_getD, List.getElem?_set_ne h,
    ← List.getD_eq_getElem?_getD]

theorem getD_append_left {E : Type} (l₁ l₂ : List E) (i : Nat) (d : E)
    (h : i < l₁.length) : (l₁ ++ l₂).getD i d = l₁.getD i d := by
  rw [List.getD_eq_getElem?_getD, List.getD_eq_getElem?_getD,
    List.getElem?_append_left h]

theorem getD_mem {E : Type} (l : List E) (i : Nat) (d : E)
    (h : i < l.length) : l.getD i d ∈ l := by
  rw [List.getD_eq_getElem l d h]
  exact List.getElem_mem h

theorem get?_eq_some_getD {E : Type} (l : List E) (i : Nat) (d : E)
    (h : i < l.length) : l.get? i = some (l.getD i d) := by
  rw [List.get?_eq_getElem?, List.getElem?_eq_getElem h, List.getD_eq_getElem l d h]

theorem set_getD_self {E : Type} (l : List E) (i : Nat) (d : E)
    (h : i < l.length) : l.set i (l.getD i d) = l := by
  induction l generalizing i with
  | nil => simp at h
  | cons a t ih =>
      cases i with
      | zero => simp [List.getD]
      | succ n =>
          simp only [List.length_cons, Nat.succ_lt_succ_iff] at h
          simp only [List.set, List.getD, List.get?, List.cons.injEq, true_and]
          exact ih n h

theorem cons_swap_perm {E : Type} (t : List E) (j : Nat) (a d : E)
    (h : j < t.length) : ((t.getD j d) :: t.set j a).Perm (a :: t) := by
  induction t generalizing j with
  | nil => simp at h
  | cons b t' ih =>
      cases j with
      | zero =>
          simpa [List.getD] using List.Perm.swap a b t'
      | succ n =>
          simp only [List.length_cons, Nat.succ_lt_succ_iff] at h
          have step := (ih n h).cons b
          have e1 : ((b :: t').getD (n + 1) d :: (b :: t').set (n + 1) a)
              = (t'.getD n d :: b :: t'.set n a) := by simp [List.getD]
          rw [e1]
          exact ((List.Perm.swap b _ _).trans step).trans (List.Perm.swap a b t')

theorem set_swap_perm_lt {E : Type} (d : E) :
    ∀ (i j : Nat) (l : List E), i < j → j < l.length →
      ((l.set i (l.getD j d)).set j (l.getD i d)).Perm l := by
  intro i
  induction i with
  | zero =>
      intro j l hij hj
      cases l with
      | nil => simp at hj
      | cons a t =>
          cases j with
          | zero => omega
          | succ n =>
              simp only [List.length_cons, Nat.succ_lt_succ_iff] at hj
              have : ((a :: t).set 0 ((a :: t).getD (n + 1) d)).set (n + 1)
                  ((a :: t).getD 0 d) = (t.getD n d) :: t.set n a := by
                simp [List.getD]
              rw [this]
              exact cons_swap_perm t n a d hj
  | succ m ih =>
      intro j l hij hj
      cases l with
      | nil => simp at hj
      | cons a t =>
          cases j with
          | zero => omega
          | succ n =>
              simp only [List.length_cons, Nat.succ_lt_succ_iff] at hj
              have hmn : m < n := by omega
              have : ((a :: t).set (m + 1) ((a :: t).getD (n + 1) d)).set (n + 1)
                  ((a :: t).getD (m + 1) d)
                  = a :: ((t.set m (t.getD n d)).set n (t.getD m d)) := by
                simp [List.getD]
              rw [this]
              exact (ih n t hmn hj).cons a

theorem set_swap_perm {E : Type} (d : E) (i j : Nat) (l : List E)
    (hi : i < l.length) (hj : j < l.length) (hij : i ≠ j) :
    ((l.set i (l.getD j d)).set j (l.getD i d)).Perm l := by
  rcases Nat.lt_or_ge i j with h | h
  · exact set_swap_perm_lt d i j l h hj
  · have h' : j < i := by omega
    rw [List.set_comm _ _ _ (by omega)]
    exact set_swap_perm_lt d j i l h' hi

theorem parent_child_rel (j : Nat) (h : 0 < j) :
    j = 2 * ((j - 1) / 2) + 1 ∨ j = 2 * ((j - 1) / 2) + 2 := by omega

theorem child_parent_eq {i j : Nat} (h : j = 2 * i + 1 ∨ j = 2 * i + 2) :
    i = (j - 1) / 2 := by omega

/-- Run a sequence of `allocate_memory` calls (no deallocations). -/
def runAllocs (m : MemoryManager) : List (Nat × Int) → MemoryManager
  | [] => m
  | c :: rest => runAllocs (allocate_memory m c.1 c.2).2 rest

/-- Strengthened memory-manager invariant used to propagate
`memInvariant` through valid call sequences: the spec invariant itself,
nonnegative recorded sizes, and unique keys. -/
def MemInvFull (m : MemoryManager) : Prop :=
  memInvariant m ∧ (∀ p ∈ m.memory_map, 0 ≤ p.2) ∧
    (m.memory_map.map (·.1)).Nodup

theorem except_bind_ok {A B : Type} (a : A) (f : A → Except String B) :
    (Except.ok a >>= f : Except String B) = f a := rfl

/-- Filling the hole of an `UpPre`-style configuration with a value that is
at least the hole's parent yields a heap. -/
theorem heapInv_of_hole {E : Type} [Inhabited E] (k : E → Int)
    (heap : List E) (pos : Nat) (v : E) (hpos : pos < heap.length)
    (h1 : ∀ i j, (j = 2 * i + 1 ∨ j = 2 * i + 2) → j < heap.length →
        i ≠ pos → j ≠ pos → k (heap.getD i default) ≤ k (heap.getD j default))
    (h2 : ∀ j, (j = 2 * pos + 1 ∨ j = 2 * pos + 2) → j < heap.length →
        k v ≤ k (heap.getD j default))
    (h3 : 0 < pos → k (heap.getD ((pos - 1) / 2) default) ≤ k v) :
    HeapInv k (heap.set pos v) := by
  intro j hj hj0
  rw [List.length_set] at hj
  have hpar := parent_child_rel j hj0
  by_cases hjp : j = pos
  · subst hjp
    rw [getD_set_ne _ _ _ (by omega), getD_set_self _ _ _ _ hj]
    exact h3 hj0
  · by_cases hip : (j - 1) / 2 = pos
    · rw [hip, getD_set_self _ _ _ _ hpos, getD_set_ne _ _ _ (by omega)]
      refine h2 j ?_ hj
      omega
    · rw [getD_set_ne _ _ _ (by omega), getD_set_ne _ _ _ (by omega)]
      exact h1 _ j hpar hj hip hjp

/-- In a heap, the root is minimal: indexed form. -/
theorem heapInv_root_le {E : Type} [Inhabited E] (k : E → Int) (l : List E)
    (hInv : HeapInv k l) :
    ∀ j, j < l.length → k (l.getD 0 default) ≤ k (l.getD j default) := by
  intro j
  induction j using Nat.strong_induction_on with
  | _ j ih =>
    intro hj
    rcases Nat.eq_zero_or_pos j with rfl | hj0
    · exact le_refl _
    · exact le_trans (ih ((j - 1) / 2) (by omega) (by omega)) (hInv j hj hj0)

/-- In a heap, the root is minimal: membership form. -/
theorem heapInv_root_le_mem {E : Type} [Inhabited E] (k : E → Int)
    (l : List E) (hInv : HeapInv k l) :
    ∀ y ∈ l, k (l.getD 0 default) ≤ k y := by
  intro y hy
  obtain ⟨n, hn, rfl⟩ := List.mem_iff_getElem.mp hy
  rw [← List.getD_eq_getElem l default hn]
  exact heapInv_root_le k l hInv n hn

/-- Full specification of the `_siftdown` loop (as called with
`startpos = 0`, the only way the kernel's heaps call it): provided the item
`v` in hand compares correctly against every element of the ambient pool
`M`, and every non-hole slot of `heap` holds an element of `M`, the loop
succeeds, returns a permutation of the array with the hole filled by `v`,
preserves the length, and — if the hole invariant `UpPre` holds at entry —
establishes the heap invariant. -/
theorem siftdownLoop_spec {E : Type} [Inhabited E]
    (lt : E → E → Except String Bool) (k : E → Int) (M : List E) (v : E)
    (Hv : ∀ y ∈ M, lt v y = .ok (decide (k v < k y))) :
    ∀ fuel pos heap, pos < heap.length → pos ≤ fuel →
    (∀ i, i < heap.length → i ≠ pos → heap.getD i default ∈ M) →
    ∃ h', siftdownLoop lt fuel heap 0 pos v = .ok h' ∧
      h'.length = heap.length ∧
      h'.Perm (heap.set pos v) ∧
      (UpPre k heap pos v → HeapInv k h') := by
  intro fuel
  induction fuel with
  | zero =>
      intro pos heap hpos hfuel hmem
      have hp0 : pos = 0 := by omega
      subst hp0
      refine ⟨heap.set 0 v, rfl, List.length_set heap 0 v, List.Perm.refl _, ?_⟩
      rintro ⟨h1, h2, _⟩
      exact heapInv_of_hole k heap 0 v hpos h1 h2 (by omega)
  | succ fuel ih =>
      intro pos heap hpos hfuel hmem
      by_cases hp0 : 0 < pos
      · have hpplt : (pos - 1) / 2 < pos := by omega
        have hpplen : (pos - 1) / 2 < heap.length := lt_trans hpplt hpos
        have hget : heap.get? ((pos - 1) / 2) =
            some (heap.getD ((pos - 1) / 2) default) :=
          get?_eq_some_getD _ _ _ hpplen
        have hparmem : heap.getD ((pos - 1) / 2) default ∈ M :=
          hmem _ hpplen (by omega)
        have hcmp := Hv _ hparmem
        have hred0 : siftdownLoop lt (fuel + 1) heap 0 pos v =
            (lt v (heap.getD ((pos - 1) / 2) default) >>= fun b =>
              if b then
                siftdownLoop lt fuel
                  (heap.set pos (heap.getD ((pos - 1) / 2) default)) 0
                  ((pos - 1) / 2) v
              else .ok (heap.set pos v)) := by
          simp only [siftdownLoop, if_pos hp0, hget]
        by_cases hlt : k v < k (heap.getD ((pos - 1) / 2) default)
        · -- the item moves up: the parent drops into the hole
          have hred : siftdownLoop lt (fuel + 1) heap 0 pos v =
              siftdownLoop lt fuel
                (heap.set pos (heap.getD ((pos - 1) / 2) default)) 0
                ((pos - 1) / 2) v := by
            rw [hred0, hcmp, except_bind_ok, if_pos (by simpa using hlt)]
          set parent := heap.getD ((pos - 1) / 2) default with hparent
          have hlen1 : (heap.set pos parent).length = heap.length :=
            List.length_set heap pos parent
          have hmem1 : ∀ i, i < (heap.set pos parent).length →
              i ≠ (pos - 1) / 2 →
              (heap.set pos parent).getD i default ∈ M := by
            intro i hi hip
            rw [hlen1] at hi
            by_cases hipos : i = pos
            · subst hipos
              rw [getD_set_self _ _ _ _ hpos]
              exact hparmem
            · rw [getD_set_ne _ _ _ (Ne.symm hipos)]
              exact hmem i hi hipos
          obtain ⟨h', heq, hlen', hperm', hinv'⟩ :=
            ih ((pos - 1) / 2) (heap.set pos parent)
              (by rw [hlen1]; exact hpplen) (by omega) hmem1
          refine ⟨h', by rw [hred]; exact heq, by rw [hlen', hlen1], ?_, ?_⟩
          · -- permutation: the recursive virtual array swaps `pos` and the
            -- parent position inside `heap.set pos v`
            have hswap : (heap.set pos parent).set ((pos - 1) / 2) v =
                ((heap.set pos v).set pos
                    ((heap.set pos v).getD ((pos - 1) / 2) default)).set
                  ((pos - 1) / 2) ((heap.set pos v).getD pos default) := by
              rw [List.set_set, getD_set_self _ _ _ _ hpos,
                getD_set_ne _ _ _ (by omega)]
            refine hperm'.trans ?_
            rw [hswap]
            exact set_swap_perm default pos ((pos - 1) / 2) (heap.set pos v)
              (by rw [List.length_set]; exact hpos)
              (by rw [List.length_set]; exact hpplen) (by omega)
          · -- conditional heap invariant: push `UpPre` through the step
            rintro ⟨h1, h2, h3⟩
            apply hinv'
            refine ⟨?_, ?_, ?_⟩
            · -- edges avoiding the new hole
              intro i j hij hj hipp hjpp
              rw [hlen1] at hj
              by_cases hjpos : j = pos
              · exact absurd (by omega) hipp
              · by_cases hipos : i = pos
                · subst hipos
                  rw [getD_set_self _ _ _ _ hpos,
                    getD_set_ne _ _ _ (Ne.symm hjpos)]
                  exact h3 j (by omega) hj hp0
                · rw [getD_set_ne _ _ _ (Ne.symm hipos),
                    getD_set_ne _ _ _ (Ne.symm hjpos)]
                  exact h1 i j hij hj hipos hjpos
            · -- `v` is at most every child of the new hole
              intro j hj hjlen
              rw [hlen1] at hjlen
              by_cases hjpos : j = pos
              · subst hjpos
                rw [getD_set_self _ _ _ _ hpos]
                exact le_of_lt hlt
              · rw [getD_set_ne _ _ _ (Ne.symm hjpos)]
                refine le_trans (le_of_lt hlt) ?_
                rw [hparent]
                refine h1 ((pos - 1) / 2) j ?_ hjlen (by omega) hjpos
                omega
            · -- the new hole's parent is at most every child of the new hole
              intro j hj hjlen hpp0
              rw [hlen1] at hjlen
              have hgp : (((pos - 1) / 2) - 1) / 2 ≠ pos := by omega
              have hgplen : (((pos - 1) / 2) - 1) / 2 < heap.length := by
                refine lt_trans ?_ hpos
                omega
              rw [getD_set_ne _ _ _ (Ne.symm hgp)]
              have hstep : k (heap.getD ((((pos - 1) / 2) - 1) / 2) default) ≤
                  k (heap.getD ((pos - 1) / 2) default) := by
                refine h1 _ _ ?_ hpplen hgp (by omega)
                exact parent_child_rel ((pos - 1) / 2) hpp0
              by_cases hjpos : j = pos
              · subst hjpos
                rw [getD_set_self _ _ _ _ hpos]
                exact hstep
              · rw [getD_set_ne _ _ _ (Ne.symm hjpos)]
                refine le_trans hstep ?_
                refine h1 ((pos - 1) / 2) j ?_ hjlen (by omega) hjpos
                omega
        · -- the item stays: fill the hole and stop
          have hred : siftdownLoop lt (fuel + 1) heap 0 pos v =
              .ok (heap.set pos v) := by
            rw [hred0, hcmp, except_bind_ok, if_neg (by simpa using hlt)]
          refine ⟨heap.set pos v, hred, List.length_set heap pos v,
            List.Perm.refl _, ?_⟩
          rintro ⟨h1, h2, _⟩
          refine heapInv_of_hole k heap pos v hpos h1 h2 ?_
          intro _
          exact le_of_not_lt hlt
      · have hp : pos = 0 := by omega
        subst hp
        refine ⟨heap.set 0 v, by simp [siftdownLoop],
          List.length_set heap 0 v, List.Perm.refl _, ?_⟩
        rintro ⟨h1, h2, _⟩
        exact heapInv_of_hole k heap 0 v hpos h1 h2 (by omega)

theorem pure_eq_ok {A : Type} (a : A) : (pure a : Except String A) = Except.ok a := rfl

/-- Full specification of the loop of `_siftup` (the downward phase):
provided all elements of the ambient pool `M` compare correctly with one
another and every non-hole slot of `heap` holds an element of `M`, the loop
succeeds and bubbles the hole from `pos` down a minimal-child path to a
childless position `fin`; the non-hole contents are preserved up to the
hole move, and — if the hole invariant `DownPre` holds at entry — every
parent/child pair not involving the final hole is ordered. -/
theorem siftupLoop_spec {E : Type} [Inhabited E]
    (lt : E → E → Except String Bool) (k : E → Int) (M : List E)
    (HM : CmpOk lt k M) :
    ∀ fuel pos heap, pos < heap.length → heap.length ≤ fuel + pos →
    (∀ i, i < heap.length → i ≠ pos → heap.getD i default ∈ M) →
    ∃ fin h2, siftupLoop lt fuel heap pos heap.length = .ok (fin, h2) ∧
      pos ≤ fin ∧ fin < heap.length ∧ heap.length ≤ 2 * fin + 1 ∧
      h2.length = heap.length ∧
      (∀ i, i < heap.length → i ≠ fin → h2.getD i default ∈ M) ∧
      (∀ v, (h2.set fin v).Perm (heap.set pos v)) ∧
      (DownPre k heap pos →
        ∀ i j, (j = 2 * i + 1 ∨ j = 2 * i + 2) → j < heap.length →
          i ≠ fin → j ≠ fin →
          k (h2.getD i default) ≤ k (h2.getD j default)) := by
  intro fuel
  induction fuel with
  | zero =>
      intro pos heap hpos hfuel _
      omega
  | succ fuel ih =>
      intro pos heap hpos hfuel hmem
      by_cases hchild : 2 * pos + 1 < heap.length
      · -- there is at least a left child: the hole moves down
        have hcl : heap.get? (2 * pos + 1) =
            some (heap.getD (2 * pos + 1) default) :=
          get?_eq_some_getD _ _ _ hchild
        have hclmem : heap.getD (2 * pos + 1) default ∈ M :=
          hmem _ hchild (by omega)
        -- `cpv` will be the chosen child position, `hmin` its minimality
        -- over the in-range children
        have hmain : ∀ cpv : Nat, (cpv = 2 * pos + 1 ∨ cpv = 2 * pos + 2) →
            cpv < heap.length →
            (∀ j, (j = 2 * pos + 1 ∨ j = 2 * pos + 2) → j < heap.length →
              k (heap.getD cpv default) ≤ k (heap.getD j default)) →
            (∃ fin h2,
              siftupLoop lt fuel (heap.set pos (heap.getD cpv default)) cpv
                heap.length = .ok (fin, h2) ∧
              pos ≤ fin ∧ fin < heap.length ∧ heap.length ≤ 2 * fin + 1 ∧
              h2.length = heap.length ∧
              (∀ i, i < heap.length → i ≠ fin → h2.getD i default ∈ M) ∧
              (∀ v, (h2.set fin v).Perm (heap.set pos v)) ∧
              (DownPre k heap pos →
                ∀ i j, (j = 2 * i + 1 ∨ j = 2 * i + 2) → j < heap.length →
                  i ≠ fin → j ≠ fin →
                  k (h2.getD i default) ≤ k (h2.getD j default))) := by
          intro cpv hcp2 cplen hmin
          have hcpnepos : cpv ≠ pos := by omega
          have hcmem : heap.getD cpv default ∈ M := hmem _ cplen hcpnepos
          set c := heap.getD cpv default with hc
          have hlen1 : (heap.set pos c).length = heap.length :=
            List.length_set heap pos c
          have hmem1 : ∀ i, i < (heap.set pos c).length → i ≠ cpv →
              (heap.set pos c).getD i default ∈ M := by
            intro i hi hicp
            rw [hlen1] at hi
            by_cases hipos : i = pos
            · subst hipos
              rw [getD_set_self _ _ _ _ hpos]
              exact hcmem
            · rw [getD_set_ne _ _ _ (Ne.symm hipos)]
              exact hmem i hi hipos
          obtain ⟨fin, h2, heq, hfin1, hfin2, hfin3, hlen2, hmem2, hperm2,
              hinv2⟩ :=
            ih cpv (heap.set pos c) (by rw [hlen1]; exact cplen)
              (by rw [hlen1]; omega) hmem1
          rw [hlen1] at heq hfin2 hfin3 hlen2 hmem2
          refine ⟨fin, h2, heq, by omega, hfin2, hfin3, hlen2, hmem2, ?_, ?_⟩
          · intro v
            refine (hperm2 v).trans ?_
            have hswap : (heap.set pos c).set cpv v =
                ((heap.set pos v).set pos
                    ((heap.set pos v).getD cpv default)).set cpv
                  ((heap.set pos v).getD pos default) := by
              rw [List.set_set, getD_set_self _ _ _ _ hpos,
                getD_set_ne _ _ _ (by omega)]
            rw [hswap]
            exact set_swap_perm default pos cpv (heap.set pos v)
              (by rw [List.length_set]; exact hpos)
              (by rw [List.length_set]; exact cplen) (Ne.symm hcpnepos)
          · rintro ⟨j1, j2⟩
            rw [← hlen1]
            apply hinv2
            unfold DownPre
            rw [hlen1]
            constructor
            · -- edges avoiding the new hole `cpv`
              intro i j hij hj hicp hjcp
              by_cases hjpos : j = pos
              · have hp0 : 0 < pos := by omega
                have hi' : i = (pos - 1) / 2 := by omega
                rw [getD_set_ne _ _ _ (by omega), hjpos,
                  getD_set_self _ _ _ _ hpos, hi']
                exact j2 cpv hcp2 cplen hp0
              · by_cases hipos : i = pos
                · rw [hipos, getD_set_self _ _ _ _ hpos,
                    getD_set_ne _ _ _ (Ne.symm hjpos)]
                  exact hmin j (by omega) hj
                · rw [getD_set_ne _ _ _ (Ne.symm hipos),
                    getD_set_ne _ _ _ (Ne.symm hjpos)]
                  exact j1 i j hij hj hipos hjpos
            · -- the new hole's parent (`pos`) is at most its children
              intro j hj hjlen _
              have hpar : (cpv - 1) / 2 = pos := by omega
              rw [hpar]
              have hjne : j ≠ pos := by omega
              have hjnecp : j ≠ cpv := by omega
              rw [getD_set_self _ _ _ _ hpos,
                getD_set_ne _ _ _ (Ne.symm hjne)]
              exact j1 cpv j (by omega) hjlen hcpnepos hjne
        by_cases hr : 2 * pos + 2 < heap.length
        · -- two children: compare them and take the smaller
          have hcr : heap.get? (2 * pos + 2) =
              some (heap.getD (2 * pos + 2) default) :=
            get?_eq_some_getD _ _ _ hr
          have hcrmem : heap.getD (2 * pos + 2) default ∈ M :=
            hmem _ hr (by omega)
          have hcmp := HM _ hclmem _ hcrmem
          by_cases hclr : k (heap.getD (2 * pos + 1) default) <
              k (heap.getD (2 * pos + 2) default)
          · obtain ⟨fin, h2, heq, hrest⟩ :=
              hmain (2 * pos + 1) (Or.inl rfl) hchild (by
                intro j hj hjlen
                rcases hj with rfl | rfl
                · exact le_refl _
                · exact le_of_lt hclr)
            refine ⟨fin, h2, ?_, hrest⟩
            simp only [siftupLoop, if_pos hchild, if_pos hr, hcl, hcr, hcmp,
              except_bind_ok, decide_eq_true_eq, if_pos hclr, pure_eq_ok]
            exact heq
          · obtain ⟨fin, h2, heq, hrest⟩ :=
              hmain (2 * pos + 2) (Or.inr rfl) hr (by
                intro j hj hjlen
                rcases hj with rfl | rfl
                · exact le_of_not_lt hclr
                · exact le_refl _)
            refine ⟨fin, h2, ?_, hrest⟩
            simp only [siftupLoop, if_pos hchild, if_pos hr, hcl, hcr, hcmp,
              except_bind_ok, decide_eq_true_eq, if_neg hclr, pure_eq_ok]
            exact heq
        · -- only the left child exists
          obtain ⟨fin, h2, heq, hrest⟩ :=
            hmain (2 * pos + 1) (Or.inl rfl) hchild (by
              intro j hj hjlen
              rcases hj with rfl | rfl
              · exact le_refl _
              · omega)
          refine ⟨fin, h2, ?_, hrest⟩
          simp only [siftupLoop, if_pos hchild, if_neg hr, hcl,
            except_bind_ok, pure_eq_ok]
          exact heq
      · -- childless hole: the loop stops here
        refine ⟨pos, heap, ?_, le_refl _, hpos, by omega, rfl, hmem,
          fun v => List.Perm.refl _, ?_⟩
        · simp only [siftupLoop, if_neg hchild]
        · rintro ⟨j1, _⟩
          intro i j hij hj hifin hjfin
          exact j1 i j hij hj hifin hjfin

theorem getD_dropLast {E : Type} (l : List E) (i : Nat) (d : E)
    (h : i < l.dropLast.length) : l.dropLast.getD i d = l.getD i d := by
  have h' : i < l.length := by
    rw [List.length_dropLast] at h
    omega
  rw [List.getD_eq_getElem l.dropLast d h, List.getD_eq_getElem l d h']
  exact List.getElem_dropLast l i h

/-- Specification of `_siftup(heap, 0)` as used by `heappop`: on a
non-empty array whose slots below the root satisfy the parent/child
ordering, it succeeds and produces a permutation of the array satisfying
the full heap invariant. -/
theorem siftup_zero_spec {E : Type} [Inhabited E]
    (lt : E → E → Except String Bool) (k : E → Int) (M : List E)
    (HM : CmpOk lt k M) (heap : List E) (h0 : 0 < heap.length)
    (Hmem : ∀ i, i < heap.length → heap.getD i default ∈ M) :
    ∃ h', siftup lt heap 0 = .ok h' ∧ h'.length = heap.length ∧
      h'.Perm heap ∧
      ((∀ i j, (j = 2 * i + 1 ∨ j = 2 * i + 2) → j < heap.length → i ≠ 0 →
          k (heap.getD i default) ≤ k (heap.getD j default)) →
        HeapInv k h') := by
  have hget : heap.get? 0 = some (heap.getD 0 default) :=
    get?_eq_some_getD _ _ _ h0
  obtain ⟨fin, h2, heqL, _, hfin2, hfin3, hlen2, hmem2, hperm2, hinv2⟩ :=
    siftupLoop_spec lt k M HM (heap.length + 1) 0 heap h0 (by omega)
      (fun i hi _ => Hmem i hi)
  set v := heap.getD 0 default with hv
  have hvmem : v ∈ M := Hmem 0 h0
  obtain ⟨h3, heqD, hlen3, hperm3, hinv3⟩ :=
    siftdownLoop_spec lt k M v (fun y hy => HM v hvmem y hy) (fin + 1) fin
      (h2.set fin v) (by rw [List.length_set, hlen2]; exact hfin2)
      (by omega)
      (by
        intro i hi hifin
        rw [List.length_set, hlen2] at hi
        rw [getD_set_ne _ _ _ (Ne.symm hifin)]
        exact hmem2 i hi hifin)
  refine ⟨h3, ?_, ?_, ?_, ?_⟩
  · simp only [siftup, hget, heqL, except_bind_ok]
    exact heqD
  · rw [hlen3, List.length_set, hlen2]
  · refine hperm3.trans ?_
    rw [List.set_set]
    refine (hperm2 v).trans ?_
    rw [hv, set_getD_self heap 0 default h0]
  · intro hedges
    apply hinv3
    have hedges2 := hinv2 (by
      refine ⟨?_, ?_⟩
      · intro i j hij hj hi0 hj0
        exact hedges i j hij hj hi0
      · intro j hj hjlen h00
        omega)
    refine ⟨?_, ?_, ?_⟩
    · intro i j hij hj hifin hjfin
      rw [List.length_set, hlen2] at hj
      rw [getD_set_ne _ _ _ (Ne.symm hifin),
        getD_set_ne _ _ _ (Ne.symm hjfin)]
      exact hedges2 i j hij hj hifin hjfin
    · intro j hj hjlen
      rw [List.length_set, hlen2] at hjlen
      omega
    · intro j hj hjlen _
      rw [List.length_set, hlen2] at hjlen
      omega

/-- Specification of `heappop` on a non-empty heap with totally comparable
contents: it returns the root (which is a minimal element), and the
remaining list is a permutation of the rest and again a heap. -/
theorem heappop_spec {E : Type} [Inhabited E]
    (lt : E → E → Except String Bool) (k : E → Int) (M : List E)
    (HM : CmpOk lt k M) (heap : List E) (hne : heap ≠ [])
    (Hmem : ∀ x ∈ heap, x ∈ M) (hInv : HeapInv k heap) :
    ∃ h', heappop lt heap = .ok (heap.getD 0 default, h') ∧
      (heap.getD 0 default :: h').Perm heap ∧ HeapInv k h' ∧
      h'.length = heap.length - 1 := by
  match heap, hne with
  | [x], _ =>
      refine ⟨[], rfl, List.Perm.refl _, ?_, rfl⟩
      intro j hj
      simp at hj
  | x :: y :: t, _ =>
      have htne : (y :: t) ≠ [] := by simp
      have hlast : (x :: y :: t).getLast? =
          some ((y :: t).getLast htne) := by
        rw [List.getLast?_eq_getLast (x :: y :: t) (by simp),
          List.getLast_cons htne]
      set lastelt := (y :: t).getLast htne with hlastdef
      have hlastmem : lastelt ∈ M :=
        Hmem _ (List.mem_cons_of_mem x (List.getLast_mem htne))
      set body := lastelt :: (y :: t).dropLast with hbody
      have hbodylen : body.length = (x :: y :: t).length - 1 := by
        rw [hbody]
        simp [List.length_dropLast]
      have hbodyget : ∀ i, 0 < i → i < body.length →
          body.getD i default = (x :: y :: t).getD i default := by
        intro i hi0 hilen
        match i, hi0 with
        | i + 1, _ =>
            have hi' : i < (y :: t).dropLast.length := by
              rw [hbody] at hilen
              simpa using hilen
            show (y :: t).dropLast.getD i default = (y :: t).getD i default
            exact getD_dropLast (y :: t) i default hi'
      have hbodymem : ∀ i, i < body.length → body.getD i default ∈ M := by
        intro i hilen
        have hmem' := getD_mem body i default hilen
        rw [hbody] at hmem'
        rcases List.mem_cons.mp hmem' with h | h
        · rw [h]
          exact hlastmem
        · exact Hmem _ (List.mem_cons_of_mem x
            ((List.dropLast_sublist (y :: t)).subset h))
      obtain ⟨h', heq, hlen', hperm', hinv'⟩ :=
        siftup_zero_spec lt k M HM body (by rw [hbodylen]; simp) hbodymem
      have hinvB : HeapInv k h' := by
        apply hinv'
        intro i j hij hj hi0
        have hj0 : 0 < j := by omega
        rw [hbodyget i (by omega) (by omega), hbodyget j hj0 hj]
        have hj' : j < (x :: y :: t).length := by
          rw [hbodylen] at hj
          simp only [List.length_cons] at hj ⊢
          omega
        have := hInv j hj' hj0
        rwa [← child_parent_eq hij] at this
      refine ⟨h', ?_, ?_, hinvB, ?_⟩
      · show heappop lt (x :: y :: t) = _
        simp only [heappop, hlast, List.dropLast_cons₂, List.set_cons_zero,
          ← hbody, heq, except_bind_ok]
        rfl
      · show (x :: h').Perm (x :: y :: t)
        refine (hperm'.cons x).trans ?_
        refine List.Perm.cons x ?_
        rw [hbody]
        refine ((List.perm_append_singleton lastelt
          ((y :: t).dropLast)).symm.trans ?_).symm.symm
        rw [hlastdef, List.dropLast_append_getLast htne]
      · rw [hlen', hbodylen]

theorem set_append_last {E : Type} :
    ∀ (l : List E) (a b : E), (l ++ [a]).set l.length b = l ++ [b] := by
  intro l
  induction l with
  | nil => intro a b; rfl
  | cons x t ih => intro a b; simp [ih]

/-- Specification of `heappush`: provided the pushed item compares
correctly against every element of the pool `M` containing the heap's
elements, the push succeeds, the result is a permutation of the old
contents plus the item, and the heap invariant is preserved. -/
theorem heappush_spec {E : Type} [Inhabited E]
    (lt : E → E → Except String Bool) (k : E → Int) (M : List E) (v : E)
    (Hv : ∀ y ∈ M, lt v y = .ok (decide (k v < k y)))
    (heap : List E) (Hmem : ∀ x ∈ heap, x ∈ M) :
    ∃ h', heappush lt heap v = .ok h' ∧ h'.Perm (v :: heap) ∧
      h'.length = heap.length + 1 ∧ (HeapInv k heap → HeapInv k h') := by
  have hlen : (heap ++ [v]).length = heap.length + 1 := by simp
  obtain ⟨h', heq, hlen', hperm', hinv'⟩ :=
    siftdownLoop_spec lt k M v Hv (heap.length + 1) heap.length
      (heap ++ [v]) (by omega) (by omega)
      (by
        intro i hi hine
        rw [hlen] at hi
        have hi' : i < heap.length := by omega
        rw [getD_append_left _ _ _ _ hi']
        exact Hmem _ (getD_mem heap i default hi'))
  refine ⟨h', heq, ?_, by rw [hlen', hlen], ?_⟩
  · refine hperm'.trans ?_
    rw [set_append_last]
    exact List.perm_append_singleton v heap
  · intro hInv
    apply hinv'
    refine ⟨?_, ?_, ?_⟩
    · intro i j hij hj hine hjne
      rw [hlen] at hj
      have hj' : j < heap.length := by omega
      have hi' : i < heap.length := by omega
      rw [getD_append_left _ _ _ _ hi', getD_append_left _ _ _ _ hj']
      have := hInv j hj' (by omega)
      rwa [← child_parent_eq hij] at this
    · intro j hj hjlen
      rw [hlen] at hjlen
      omega
    · intro j hj hjlen _
      rw [hlen] at hjlen
      omega

/-- With pairwise-distinct priorities, Python's tuple comparison on
interrupt entries is total and computes the priority order. -/
theorem cmpOk_of_nodup_priorities (q : List IEntry)
    (hnd : (q.map (·.1)).Nodup) : CmpOk cmpEntry (·.1) q := by
  intro x hx y hy
  unfold cmpEntry
  by_cases h1 : x.1 < y.1
  · simp [h1]
  · by_cases h2 : y.1 < x.1
    · rw [if_neg h1, if_pos h2]
      simp
      omega
    · have hxy : x = y :=
        List.inj_on_of_nodup_map hnd hx hy (le_antisymm (by omega) (by omega))
      subst hxy
      simp [h1, h2]

theorem pairwise_lt_of_le_nodup (l : List IEntry)
    (hle : l.Pairwise (fun a b => a.1 ≤ b.1))
    (hnd : (l.map (·.1)).Nodup) : l.Pairwise (fun a b => a.1 < b.1) := by
  have hne : l.Pairwise (fun a b : IEntry => a.1 ≠ b.1) :=
    List.pairwise_map.mp hnd
  exact (hle.and hne).imp (fun h => lt_of_le_of_ne h.1 h.2)

/-- Specification of the `handle_interrupts` loop on a queue with totally
comparable contents: it succeeds, pops exactly the queue's entries in
ascending priority order, and reports exactly the handlers whose
invocation raised, in that same order. -/
theorem handleLoop_spec (hbeh : Nat → Bool) :
    ∀ fuel (q : List IEntry), q.length ≤ fuel →
    CmpOk cmpEntry (fun e : IEntry => e.1) q →
    HeapInv (fun e : IEntry => e.1) q →
    ∃ pops, handleLoop hbeh fuel q =
        .ok (pops, (pops.filter (fun e => hbeh e.2)).map (·.2)) ∧
      pops.Perm q ∧ pops.Pairwise (fun a b => a.1 ≤ b.1) := by
  intro fuel
  induction fuel with
  | zero =>
      intro q hlen _ _
      match q, hlen with
      | [], _ => exact ⟨[], rfl, List.Perm.refl _, List.Pairwise.nil⟩
  | succ fuel ih =>
      intro q hlen hcmp hInv
      match q with
      | [] => exact ⟨[], rfl, List.Perm.refl _, List.Pairwise.nil⟩
      | e0 :: tl =>
          obtain ⟨h', hpopeq, hperm, hInv', hlen'⟩ :=
            heappop_spec cmpEntry (fun e : IEntry => e.1) (e0 :: tl) hcmp
              (e0 :: tl) (by simp) (fun x hx => hx) hInv
          have hroot : (e0 :: tl).getD 0 default = e0 := rfl
          rw [hroot] at hpopeq hperm
          have hmemh : ∀ x ∈ h', x ∈ e0 :: tl := by
            intro x hx
            exact hperm.mem_iff.mp (List.mem_cons_of_mem e0 hx)
          obtain ⟨pops', heq', hperm', hpair'⟩ :=
            ih h' (by simp only [List.length_cons] at hlen hlen'; omega)
              (fun x hx y hy => hcmp x (hmemh x hx) y (hmemh y hy)) hInv'
          refine ⟨e0 :: pops', ?_, ?_, ?_⟩
          · simp only [handleLoop, hpopeq, except_bind_ok, heq',
              List.filter_cons]
            by_cases hb : hbeh e0.2
            · simp [hb]
            · simp [hb]
          · exact (hperm'.cons e0).trans hperm
          · refine List.Pairwise.cons ?_ hpair'
            intro b hb
            have hbq : b ∈ e0 :: tl :=
              hmemh b (hperm'.mem_iff.mp hb)
            have := heapInv_root_le_mem (fun e : IEntry => e.1) (e0 :: tl)
              hInv b hbq
            simpa using this

/-! ### Memory-manager lemmas -/

theorem mapLookup_mem :
    ∀ (l : List (Nat × Int)) (key : Nat) (v : Int),
      mapLookup l key = some v → (key, v) ∈ l := by
  intro l
  induction l with
  | nil => intro key v h; simp [mapLookup] at h
  | cons p rest ih =>
      intro key v h
      rw [mapLookup] at h
      by_cases hk : p.1 = key
      · rw [if_pos hk] at h
        injection h with h2
        have hp : p = (key, v) := by
          obtain ⟨a, b⟩ := p
          simp only at hk h2
          rw [hk, h2]
        rw [← hp]
        exact List.mem_cons_self p rest
      · rw [if_neg hk] at h
        exact List.mem_cons_of_mem _ (ih key v h)

theorem mapErase_sublist :
    ∀ (l : List (Nat × Int)) (key : Nat), (mapErase l key).Sublist l := by
  intro l
  induction l with
  | nil => intro key; simp [mapErase]
  | cons p rest ih =>
      intro key
      rw [mapErase]
      by_cases hk : p.1 = key
      · rw [if_pos hk]
        exact (List.sublist_cons_self p rest)
      · rw [if_neg hk]
        exact (ih key).cons₂ p

theorem sum_mapErase :
    ∀ (l : List (Nat × Int)) (key : Nat) (v : Int),
      mapLookup l key = some v →
      (l.map (·.2)).sum = ((mapErase l key).map (·.2)).sum + v := by
  intro l
  induction l with
  | nil => intro key v h; simp [mapLookup] at h
  | cons p rest ih =>
      intro key v h
      rw [mapLookup] at h
      rw [mapErase]
      by_cases hk : p.1 = key
      · rw [if_pos hk] at h
        cases h
        rw [if_pos hk]
        simp
        ring
      · rw [if_neg hk] at h
        rw [if_neg hk]
        simp only [List.map_cons, List.sum_cons, ih key v h]
        ring

theorem memInvFull_init (total : Int) (htot : 0 ≤ total) :
    MemInvFull (MemoryManager.init total) := by
  refine ⟨⟨rfl, htot⟩, ?_, ?_⟩ <;> simp [MemoryManager.init]

theorem mapInsert_not_mem :
    ∀ (l : List (Nat × Int)) (key : Nat) (v : Int),
      key ∉ l.map (·.1) → mapInsert l key v = l ++ [(key, v)] := by
  intro l
  induction l with
  | nil => intro key v _; rfl
  | cons p rest ih =>
      intro key v h
      simp only [List.map_cons, List.mem_cons, not_or] at h
      rw [mapInsert, if_neg (fun he => h.1 he.symm), ih key v h.2,
        List.cons_append]

theorem memInvFull_step (m : MemoryManager) (op : MemOp)
    (hfull : MemInvFull m)
    (hvalid : match op with
      | .alloc pid size => 0 ≤ size ∧ pid ∉ m.memory_map.map (·.1)
      | .dealloc _ => True) :
    MemInvFull (applyMemOp m op) := by
  obtain ⟨⟨hsum, hle⟩, hnn, hnd⟩ := hfull
  match op with
  | .alloc pid size =>
      obtain ⟨hsz, hpid⟩ := hvalid
      show MemInvFull (allocate_memory m pid size).2
      unfold allocate_memory
      by_cases hover : m.used_memory + size > m.total_memory
      · rw [if_pos hover]
        exact ⟨⟨hsum, hle⟩, hnn, hnd⟩
      · rw [if_neg hover]
        dsimp only
        refine ⟨⟨?_, ?_⟩, ?_, ?_⟩
        · simp only [mapInsert_not_mem m.memory_map pid size hpid,
            List.map_append, List.sum_append, List.map_cons, List.map_nil,
            List.sum_cons, List.sum_nil]
          omega
        · show m.used_memory + size ≤ m.total_memory
          omega
        · intro p hp
          rw [mapInsert_not_mem m.memory_map pid size hpid] at hp
          rcases List.mem_append.mp hp with h | h
          · exact hnn p h
          · simp only [List.mem_singleton] at h
            rw [h]
            exact hsz
        · rw [mapInsert_not_mem m.memory_map pid size hpid]
          simp only [List.map_append, List.map_cons, List.map_nil]
          refine List.Nodup.append hnd (List.nodup_singleton pid) ?_
          intro a ha hb
          simp only [List.mem_singleton] at hb
          subst hb
          exact hpid ha
  | .dealloc pid =>
      show MemInvFull (deallocate_memory m pid)
      unfold deallocate_memory
      cases hlook : mapLookup m.memory_map pid with
      | none => exact ⟨⟨hsum, hle⟩, hnn, hnd⟩
      | some sz =>
          have hmem := mapLookup_mem m.memory_map pid sz hlook
          have hsz : 0 ≤ sz := hnn _ hmem
          have herase := sum_mapErase m.memory_map pid sz hlook
          refine ⟨⟨?_, ?_⟩, ?_, ?_⟩
          · simp only
            omega
          · simp only
            omega
          · intro p hp
            exact hnn p ((mapErase_sublist m.memory_map pid).subset hp)
          · exact List.Nodup.sublist
              ((mapErase_sublist m.memory_map pid).map (·.1)) hnd

theorem memInvFull_run :
    ∀ (ops : List MemOp) (m : MemoryManager), MemInvFull m →
      validMemOps m ops = true → MemInvFull (runMemOps m ops) := by
  intro ops
  induction ops with
  | nil => intro m hfull _; exact hfull
  | cons op rest ih =>
      intro m hfull hvalid
      match op with
      | .alloc pid size =>
          rw [validMemOps, Bool.and_eq_true, Bool.and_eq_true,
            decide_eq_true_eq, decide_eq_true_eq] at hvalid
          exact ih _ (memInvFull_step m (.alloc pid size) hfull hvalid.1)
            hvalid.2
      | .dealloc pid =>
          rw [validMemOps] at hvalid
          exact ih _ (memInvFull_step m (.dealloc pid) hfull trivial) hvalid

theorem validMemOps_append_left :
    ∀ (l₁ l₂ : List MemOp) (m : MemoryManager),
      validMemOps m (l₁ ++ l₂) = true → validMemOps m l₁ = true := by
  intro l₁
  induction l₁ with
  | nil => intro l₂ m _; rfl
  | cons op rest ih =>
      intro l₂ m h
      match op with
      | .alloc pid size =>
          rw [List.cons_append, validMemOps, Bool.and_eq_true] at h
          rw [validMemOps, Bool.and_eq_true]
          exact ⟨h.1, ih l₂ _ h.2⟩
      | .dealloc pid =>
          rw [List.cons_append, validMemOps] at h
          rw [validMemOps]
          exact ih l₂ _ h

theorem runMemOps_append (l₁ l₂ : List MemOp) :
    ∀ m, runMemOps m (l₁ ++ l₂) = runMemOps (runMemOps m l₁) l₂ := by
  induction l₁ with
  | nil => intro m; rfl
  | cons op rest ih => intro m; rw [List.cons_append, runMemOps, ih, runMemOps]

/-! ### Claim theorems -/

/-- C2, counterexample: two `allocate_memory` calls for the same process id
both succeed, after which `used_memory = 30` but the recorded allocations
sum to `20`, so the invariant `used == sum(allocation.values())` fails
after the second call. -/
theorem c2_counterexample :
    (allocate_memory (MemoryManager.init 1024) 7 10).1 = true ∧
    (allocate_memory
        (allocate_memory (MemoryManager.init 1024) 7 10).2 7 20).1 = true ∧
    ¬ memInvariant
        (allocate_memory
          (allocate_memory (MemoryManager.init 1024) 7 10).2 7 20).2 := by
  refine ⟨by decide, by decide, by decide⟩

/-- C2 (amended): for every sequence of allocate and deallocate calls in
which every allocate call uses a nonnegative size and a process id that is
not currently allocated, the invariant `used == sum(allocation.values())`
and `used <= total` holds after every call (i.e. after every prefix of the
sequence), starting from a freshly constructed manager with nonnegative
capacity. -/
theorem c2_mem_invariant_amended :
    ∀ (total : Int), 0 ≤ total →
    ∀ (ops1 ops2 : List MemOp),
      validMemOps (MemoryManager.init total) (ops1 ++ ops2) = true →
      memInvariant (runMemOps (MemoryManager.init total) ops1) := by
  intro total htot ops1 ops2 hvalid
  exact (memInvFull_run ops1 (MemoryManager.init total)
    (memInvFull_init total htot)
    (validMemOps_append_left ops1 ops2 _ hvalid)).1

/-- Witness for C2 (amended) at a concrete valid call sequence. -/
theorem c2_mem_invariant_amended_witness :
    (0 : Int) ≤ 1024 ∧
    validMemOps (MemoryManager.init 1024)
      ([MemOp.alloc 1 10, MemOp.dealloc 1] ++ [MemOp.alloc 2 5]) = true ∧
    memInvariant
      (runMemOps (MemoryManager.init 1024)
        [MemOp.alloc 1 10, MemOp.dealloc 1]) :=
  ⟨by decide, by decide,
   c2_mem_invariant_amended 1024 (by decide)
     [MemOp.alloc 1 10, MemOp.dealloc 1] [MemOp.alloc 2 5] (by decide)⟩

/-- C3: `allocate_memory` succeeds iff `used + size <= total`; on success it
records the mapping and increments `used_memory` by exactly `size`, leaving
`total_memory` unchanged; on failure it returns `false` and leaves the
manager entirely unchanged (no partial allocation); and over any sequence
of allocate calls from a state with `used <= total`, `used` never exceeds
`total`. -/
theorem c3_allocate_memory_spec :
    (∀ (m : MemoryManager) (pid : Nat) (size : Int),
      (allocate_memory m pid size).1 = true ↔
        m.used_memory + size ≤ m.total_memory) ∧
    (∀ (m : MemoryManager) (pid : Nat) (size : Int),
      m.used_memory + size ≤ m.total_memory →
        allocate_memory m pid size =
          (true,
            { total_memory := m.total_memory
              used_memory := m.used_memory + size
              memory_map := mapInsert m.memory_map pid size })) ∧
    (∀ (m : MemoryManager) (pid : Nat) (size : Int),
      m.total_memory < m.used_memory + size →
        allocate_memory m pid size = (false, m)) ∧
    (∀ (allocs : List (Nat × Int)) (m : MemoryManager),
      m.used_memory ≤ m.total_memory →
      (runAllocs m allocs).used_memory ≤ (runAllocs m allocs).total_memory) := by
  refine ⟨?_, ?_, ?_, ?_⟩
  · intro m pid size
    unfold allocate_memory
    by_cases h : m.used_memory + size > m.total_memory
    · rw [if_pos h]
      constructor
      · intro hh
        simp at hh
      · intro hh
        omega
    · rw [if_neg h]
      exact ⟨fun _ => by omega, fun _ => rfl⟩
  · intro m pid size h
    unfold allocate_memory
    rw [if_neg (by omega)]
  · intro m pid size h
    unfold allocate_memory
    rw [if_pos (by omega)]
  · intro allocs
    induction allocs with
    | nil => intro m h; exact h
    | cons c rest ih =>
        intro m h
        rw [runAllocs]
        refine ih _ ?_
        unfold allocate_memory
        by_cases hc : m.used_memory + c.2 > m.total_memory
        · rw [if_pos hc]
          exact h
        · rw [if_neg hc]
          show m.used_memory + c.2 ≤ m.total_memory
          omega

/-- Witness for C3 at concrete inputs: a succeeding call, a failing call,
and a three-call sequence. -/
theorem c3_allocate_memory_spec_witness :
    ((MemoryManager.init 1024).used_memory + 100 ≤
      (MemoryManager.init 1024).total_memory) ∧
    allocate_memory (MemoryManager.init 1024) 0 100 =
      (true,
        { total_memory := (MemoryManager.init 1024).total_memory
          used_memory := (MemoryManager.init 1024).used_memory + 100
          memory_map := mapInsert (MemoryManager.init 1024).memory_map 0 100 }) ∧
    ((MemoryManager.init 50).total_memory <
      (MemoryManager.init 50).used_memory + 60) ∧
    allocate_memory (MemoryManager.init 50) 0 60 =
      (false, MemoryManager.init 50) ∧
    ((runAllocs (MemoryManager.init 10) [(0, 4), (1, 9), (2, 6)]).used_memory ≤
      (runAllocs (MemoryManager.init 10) [(0, 4), (1, 9), (2, 6)]).total_memory) :=
  ⟨by decide,
   c3_allocate_memory_spec.2.1 (MemoryManager.init 1024) 0 100 (by decide),
   by decide,
   c3_allocate_memory_spec.2.2.1 (MemoryManager.init 50) 0 60 (by decide),
   c3_allocate_memory_spec.2.2.2 [(0, 4), (1, 9), (2, 6)]
     (MemoryManager.init 10) (by decide)⟩

/-- C10: `allocate_memory` performs no validation that `size` is positive:
whenever `used + size <= total` the call succeeds and adds `size` to
`used_memory`, including zero and negative sizes; concretely, allocating
`-5` on a fresh 1024-byte manager succeeds, strictly decreases
`used_memory` (to `-5`), and makes `get_free_memory` return `1029`, which
exceeds the total capacity. -/
theorem c10_allocate_no_size_validation :
    (∀ (m : MemoryManager) (pid : Nat) (size : Int),
      m.used_memory + size ≤ m.total_memory →
        (allocate_memory m pid size).1 = true ∧
        (allocate_memory m pid size).2.used_memory = m.used_memory + size) ∧
    ((allocate_memory (MemoryManager.init 1024) 1 (-5)).1 = true ∧
     (allocate_memory (MemoryManager.init 1024) 1 (-5)).2.used_memory = -5 ∧
     (allocate_memory (MemoryManager.init 1024) 1 (-5)).2.used_memory <
       (MemoryManager.init 1024).used_memory ∧
     get_free_memory (allocate_memory (MemoryManager.init 1024) 1 (-5)).2 = 1029 ∧
     (MemoryManager.init 1024).total_memory <
       get_free_memory (allocate_memory (MemoryManager.init 1024) 1 (-5)).2) := by
  constructor
  · intro m pid size h
    unfold allocate_memory
    rw [if_neg (by omega)]
    exact ⟨rfl, rfl⟩
  · refine ⟨by decide, by decide, by decide, by decide, by decide⟩

/-- Witness for C10 at a concrete negative-size allocation. -/
theorem c10_allocate_no_size_validation_witness :
    ((MemoryManager.init 7).used_memory + (-3) ≤
      (MemoryManager.init 7).total_memory) ∧
    (allocate_memory (MemoryManager.init 7) 4 (-3)).1 = true ∧
    (allocate_memory (MemoryManager.init 7) 4 (-3)).2.used_memory =
      (MemoryManager.init 7).used_memory + (-3) :=
  ⟨by decide,
   (c10_allocate_no_size_validation.1 (MemoryManager.init 7) 4 (-3)
     (by decide)).1,
   (c10_allocate_no_size_validation.1 (MemoryManager.init 7) 4 (-3)
     (by decide)).2⟩

/-- C1: evaluation of the claimed end-to-end scenario.  Starting the kernel
against its 1024-byte manager, `create_process("job", 0, 100)` succeeds and
`get_free_memory` returns `924`; after one scheduling-loop iteration the
process object is `TERMINATED` — but `get_free_memory` still returns `924`
and the allocation is still recorded, because
`terminate_current_process` clears `running_process` before the loop's
`if self.process_scheduler.running_process:` guard runs, so
`deallocate_memory` is never invoked.  The claimed (and intended,
per the loop's own `# Free associated memory` comment) final value `1024`
is not reached. -/
theorem c1_scheduler_loop_never_deallocates :
    ∃ (p pT : Process) (k1 k2 : Kernel),
      create_process Kernel.init "job" 0 100 = .ok (some p, k1) ∧
      get_free_memory k1.memory_manager = 924 ∧
      scheduler_iteration k1 = .ok (some pT, k2) ∧
      pT.pid = p.pid ∧
      pT.state = PState.TERMINATED ∧
      get_free_memory k2.memory_manager = 924 ∧
      get_free_memory k2.memory_manager ≠ 1024 ∧
      k2.memory_manager.memory_map = [(p.pid, 100)] ∧
      k2.process_scheduler.running_process = none := by
  refine ⟨{ pid := 0, name := "job", priority := 0, state := .READY },
    { pid := 0, name := "job", priority := 0, state := .TERMINATED },
    { memory_manager :=
        { total_memory := 1024, used_memory := 100, memory_map := [(0, 100)] }
      interrupt_queue := []
      process_scheduler :=
        { ready_queue :=
            [{ pid := 0, name := "job", priority := 0, state := .READY }]
          running_process := none }
      next_pid := 1 },
    { memory_manager :=
        { total_memory := 1024, used_memory := 100, memory_map := [(0, 100)] }
      interrupt_queue := []
      process_scheduler := { ready_queue := [], running_process := none }
      next_pid := 1 },
    rfl, rfl, rfl, rfl, rfl, rfl, by decide, rfl, rfl⟩

/-- C7: `create_process` with insufficient memory returns the failure
signal `none` inside a normal (non-exceptional) result and mutates nothing
but the consumed process id — in particular the scheduler and the memory
manager are untouched; with sufficient memory it returns the created
process, in state `READY`, and the ready queue gains exactly that
process. -/
theorem c7_create_process_spec :
    (∀ (kk : Kernel) (name : String) (priority memory_required : Int),
      kk.memory_manager.total_memory <
          kk.memory_manager.used_memory + memory_required →
      create_process kk name priority memory_required =
        .ok (none, { kk with next_pid := kk.next_pid + 1 })) ∧
    (∀ (kk : Kernel) (name : String) (priority memory_required : Int),
      kk.memory_manager.used_memory + memory_required ≤
          kk.memory_manager.total_memory →
      ∃ (p : Process) (kk' : Kernel),
        create_process kk name priority memory_required = .ok (some p, kk') ∧
        p = { pid := kk.next_pid, name := name, priority := priority,
              state := PState.READY } ∧
        kk'.process_scheduler.ready_queue.Perm
          (p :: kk.process_scheduler.ready_queue) ∧
        kk'.process_scheduler.running_process =
          kk.process_scheduler.running_process ∧
        kk'.memory_manager =
          (allocate_memory kk.memory_manager kk.next_pid memory_required).2 ∧
        kk'.interrupt_queue = kk.interrupt_queue ∧
        kk'.next_pid = kk.next_pid + 1) := by
  constructor
  · intro kk name priority mr h
    have halloc : allocate_memory kk.memory_manager kk.next_pid mr =
        (false, kk.memory_manager) := by
      unfold allocate_memory
      rw [if_pos (by omega)]
    unfold create_process
    dsimp only
    rw [halloc]
    rfl
  · intro kk name priority mr h
    have halloc : allocate_memory kk.memory_manager kk.next_pid mr =
        (true,
          { total_memory := kk.memory_manager.total_memory
            used_memory := kk.memory_manager.used_memory + mr
            memory_map :=
              mapInsert kk.memory_manager.memory_map kk.next_pid mr }) := by
      unfold allocate_memory
      rw [if_neg (by omega)]
    obtain ⟨rq', hpush, hperm, _, _⟩ :=
      heappush_spec ltProcess (fun pr : Process => pr.priority)
        ({ pid := kk.next_pid, name := name, priority := priority,
           state := PState.READY } :: kk.process_scheduler.ready_queue)
        { pid := kk.next_pid, name := name, priority := priority,
          state := PState.READY }
        (fun y _ => rfl)
        kk.process_scheduler.ready_queue
        (fun x hx => List.mem_cons_of_mem _ hx)
    refine ⟨⟨kk.next_pid, name, priority, PState.READY⟩,
      ⟨(allocate_memory kk.memory_manager kk.next_pid mr).2,
        kk.interrupt_queue,
        ⟨rq', kk.process_scheduler.running_process⟩,
        kk.next_pid + 1⟩,
      ?_, rfl, hperm, rfl, rfl, rfl, rfl⟩
    unfold create_process add_process
    dsimp only
    rw [halloc]
    dsimp only
    rw [hpush, except_bind_ok]
    rfl

/-- Witness for C7 at concrete inputs: one failing and one succeeding
creation. -/
theorem c7_create_process_spec_witness :
    (Kernel.init.memory_manager.total_memory <
      Kernel.init.memory_manager.used_memory + 2000) ∧
    create_process Kernel.init "big" 0 2000 =
      .ok (none, { Kernel.init with next_pid := Kernel.init.next_pid + 1 }) ∧
    (Kernel.init.memory_manager.used_memory + 100 ≤
      Kernel.init.memory_manager.total_memory) ∧
    ∃ (p : Process) (kk' : Kernel),
      create_process Kernel.init "job" 0 100 = .ok (some p, kk') ∧
      p = { pid := Kernel.init.next_pid, name := "job", priority := 0,
            state := PState.READY } ∧
      kk'.process_scheduler.ready_queue.Perm
        (p :: Kernel.init.process_scheduler.ready_queue) ∧
      kk'.process_scheduler.running_process =
        Kernel.init.process_scheduler.running_process ∧
      kk'.memory_manager =
        (allocate_memory Kernel.init.memory_manager Kernel.init.next_pid 100).2 ∧
      kk'.interrupt_queue = Kernel.init.interrupt_queue ∧
      kk'.next_pid = Kernel.init.next_pid + 1 :=
  ⟨by decide,
   c7_create_process_spec.1 Kernel.init "big" 0 2000 (by decide),
   by decide,
   c7_create_process_spec.2 Kernel.init "job" 0 100 (by decide)⟩

/-- C6: on a (reachable, i.e. heap-shaped) scheduler state,
`schedule_next_process` with a non-empty ready queue removes a ready
process with the numerically smallest priority value, marks it `RUNNING`,
installs it as the sole running process and returns it, leaving the rest of
the queue as a heap; with an empty ready queue it clears the running slot
and returns none.  With priorities `[5, 1, 3]` inserted in that order, the
first three selections have priorities 1, then 3, then 5. -/
theorem c6_schedule_next_spec :
    (∀ s : ProcessScheduler,
      HeapInv (fun p : Process => p.priority) s.ready_queue →
      (s.ready_queue = [] →
        schedule_next_process s =
          .ok (none, { s with running_process := none })) ∧
      (s.ready_queue ≠ [] →
        ∃ rq',
          schedule_next_process s =
            .ok
              (some { s.ready_queue.getD 0 default with
                        state := PState.RUNNING },
                { ready_queue := rq'
                  running_process :=
                    some { s.ready_queue.getD 0 default with
                             state := PState.RUNNING } }) ∧
          (s.ready_queue.getD 0 default :: rq').Perm s.ready_queue ∧
          HeapInv (fun p : Process => p.priority) rq' ∧
          ∀ q ∈ s.ready_queue,
            (s.ready_queue.getD 0 default).priority ≤ q.priority)) ∧
    (∃ s3 r1 r2 r3,
      (do
        let a1 ← add_process ProcessScheduler.init
          ⟨50, "p5", 5, PState.NEW⟩
        let a2 ← add_process a1.2 ⟨51, "p1", 1, PState.NEW⟩
        add_process a2.2 ⟨52, "p3", 3, PState.NEW⟩ :
          Except String (Process × ProcessScheduler)) = .ok s3 ∧
      schedule_next_process s3.2 = .ok r1 ∧
      schedule_next_process r1.2 = .ok r2 ∧
      schedule_next_process r2.2 = .ok r3 ∧
      r1.1.map Process.priority = some 1 ∧
      r2.1.map Process.priority = some 3 ∧
      r3.1.map Process.priority = some 5) := by
  constructor
  · intro s hInv
    constructor
    · intro hempty
      unfold schedule_next_process
      rw [hempty]
    · intro hne
      match hq : s.ready_queue, hne with
      | q0 :: qtl, _ =>
          obtain ⟨rq', hpop, hperm, hInv', _⟩ :=
            heappop_spec ltProcess (fun p : Process => p.priority)
              (q0 :: qtl) (fun x _ y _ => rfl) (q0 :: qtl) (by simp)
              (fun x hx => hx) (hq ▸ hInv)
          refine ⟨rq', ?_, hperm, hInv', ?_⟩
          · unfold schedule_next_process
            rw [hq]
            dsimp only
            rw [hpop, except_bind_ok]
          · intro q hqmem
            exact heapInv_root_le_mem (fun p : Process => p.priority)
              (q0 :: qtl) (hq ▸ hInv) q hqmem
  · exact ⟨⟨⟨52, "p3", 3, PState.READY⟩,
      ⟨[⟨51, "p1", 1, PState.READY⟩, ⟨50, "p5", 5, PState.READY⟩,
        ⟨52, "p3", 3, PState.READY⟩], none⟩⟩,
      ⟨some ⟨51, "p1", 1, PState.RUNNING⟩,
        ⟨[⟨52, "p3", 3, PState.READY⟩, ⟨50, "p5", 5, PState.READY⟩],
          some ⟨51, "p1", 1, PState.RUNNING⟩⟩⟩,
      ⟨some ⟨52, "p3", 3, PState.RUNNING⟩,
        ⟨[⟨50, "p5", 5, PState.READY⟩],
          some ⟨52, "p3", 3, PState.RUNNING⟩⟩⟩,
      ⟨some ⟨50, "p5", 5, PState.RUNNING⟩,
        ⟨[], some ⟨50, "p5", 5, PState.RUNNING⟩⟩⟩,
      rfl, rfl, rfl, rfl, rfl, rfl, rfl⟩

/-- Witness for C6: the theorem applied to a concrete two-process heap
state and to a concrete empty state. -/
theorem c6_schedule_next_spec_witness :
    HeapInv (fun p : Process => p.priority)
      ([⟨1, "a", 2, PState.READY⟩, ⟨2, "b", 4, PState.READY⟩] :
        List Process) ∧
    (({ ready_queue :=
          [⟨1, "a", 2, PState.READY⟩, ⟨2, "b", 4, PState.READY⟩]
        running_process := none } : ProcessScheduler).ready_queue ≠ []) ∧
    (∃ rq',
      schedule_next_process
          { ready_queue :=
              [⟨1, "a", 2, PState.READY⟩, ⟨2, "b", 4, PState.READY⟩]
            running_process := none } =
        .ok (some ⟨1, "a", 2, PState.RUNNING⟩,
          { ready_queue := rq'
            running_process := some ⟨1, "a", 2, PState.RUNNING⟩ }) ∧
      ((⟨1, "a", 2, PState.READY⟩ : Process) :: rq').Perm
        [⟨1, "a", 2, PState.READY⟩, ⟨2, "b", 4, PState.READY⟩] ∧
      HeapInv (fun p : Process => p.priority) rq' ∧
      ∀ q ∈ ([⟨1, "a", 2, PState.READY⟩, ⟨2, "b", 4, PState.READY⟩] :
          List Process), (2 : Int) ≤ q.priority) ∧
    schedule_next_process
        { ready_queue := [], running_process := some ⟨9, "r", 0, PState.RUNNING⟩ } =
      .ok (none, { ready_queue := [], running_process := none }) := by
  refine ⟨by decide, by decide, ?_, ?_⟩
  · exact (c6_schedule_next_spec.1
      { ready_queue :=
          [⟨1, "a", 2, PState.READY⟩, ⟨2, "b", 4, PState.READY⟩]
        running_process := none } (by decide)).2 (by decide)
  · exact (c6_schedule_next_spec.1
      { ready_queue := []
        running_process := some ⟨9, "r", 0, PState.RUNNING⟩ }
      (by decide)).1 rfl

/-- C4, counterexample: a pending queue with two equal-priority entries is
reachable through three successful `raise_interrupt` calls, yet
`handle_interrupts` on it raises `TypeError` (out of the heap comparison
of the two tied tuples) instead of processing the entries — so the claim
does not hold for every pending multiset. -/
theorem c4_counterexample :
    raise_interrupt [] 0 5 = .ok [(0, 5)] ∧
    raise_interrupt [(0, 5)] 1 10 = .ok [(0, 5), (1, 10)] ∧
    raise_interrupt [(0, 5), (1, 10)] 1 11 =
      .ok [(0, 5), (1, 10), (1, 11)] ∧
    handle_interrupts (fun _ => false) [(0, 5), (1, 10), (1, 11)] =
      .error "TypeError" :=
  ⟨rfl, rfl, rfl, rfl⟩

/-- C4 (amended): for every pending queue with pairwise-distinct priority
values (in heap shape, as every queue reached through `raise_interrupt`
is), `handle_interrupts` removes and invokes the entries one at a time in
strictly ascending priority order until the queue is empty; in particular
`raise_interrupt(2, h2)` then `raise_interrupt(1, h1)` then
`handle_interrupts()` invokes `h1` before `h2`. -/
theorem c4_handle_interrupts_ascending :
    (∀ (hbeh : Nat → Bool) (q : List IEntry),
      (q.map (·.1)).Nodup →
      HeapInv (fun e : IEntry => e.1) q →
      ∃ pops, handle_interrupts hbeh q =
          .ok (pops, (pops.filter (fun e => hbeh e.2)).map (·.2)) ∧
        pops.Perm q ∧ pops.Pairwise (fun a b => a.1 < b.1)) ∧
    (raise_interrupt [] 2 20 = .ok [(2, 20)] ∧
     raise_interrupt [(2, 20)] 1 11 = .ok [(1, 11), (2, 20)] ∧
     handle_interrupts (fun _ => false) [(1, 11), (2, 20)] =
       .ok ([(1, 11), (2, 20)], [])) := by
  constructor
  · intro hbeh q hnd hInv
    obtain ⟨pops, heq, hperm, hpair⟩ :=
      handleLoop_spec hbeh q.length q (le_refl _)
        (cmpOk_of_nodup_priorities q hnd) hInv
    refine ⟨pops, heq, hperm, ?_⟩
    refine pairwise_lt_of_le_nodup pops hpair ?_
    exact List.Nodup.perm hnd (hperm.map (·.1)).symm
  · exact ⟨rfl, rfl, rfl⟩

/-- Witness for C4 (amended) at a concrete three-entry queue. -/
theorem c4_handle_interrupts_ascending_witness :
    (([(1, 11), (2, 20), (3, 30)] : List IEntry).map (·.1)).Nodup ∧
    HeapInv (fun e : IEntry => e.1)
      ([(1, 11), (2, 20), (3, 30)] : List IEntry) ∧
    ∃ pops,
      handle_interrupts (fun _ => false) [(1, 11), (2, 20), (3, 30)] =
        .ok (pops,
          (pops.filter (fun e => (fun _ : Nat => false) e.2)).map (·.2)) ∧
      pops.Perm [(1, 11), (2, 20), (3, 30)] ∧
      pops.Pairwise (fun a b => a.1 < b.1) :=
  ⟨by decide, by decide,
   c4_handle_interrupts_ascending.1 (fun _ => false)
     [(1, 11), (2, 20), (3, 30)] (by decide) (by decide)⟩

/-- C5, counterexample: on a reachable pending queue containing two
equal-priority entries, with the first handler (id 5) raising during its
invocation, `handle_interrupts` terminates with an escaping `TypeError`:
the remaining queued handlers are never invoked and an exception escapes
the call, so the claim does not hold for every queue. -/
theorem c5_counterexample :
    raise_interrupt [] 0 5 = .ok [(0, 5)] ∧
    raise_interrupt [(0, 5)] 1 10 = .ok [(0, 5), (1, 10)] ∧
    raise_interrupt [(0, 5), (1, 10)] 1 11 =
      .ok [(0, 5), (1, 10), (1, 11)] ∧
    handle_interrupts (fun h => h == 5) [(0, 5), (1, 10), (1, 11)] =
      .error "TypeError" :=
  ⟨rfl, rfl, rfl, rfl⟩

/-- C5 (amended): on every pending queue with pairwise-distinct priority
values (in heap shape), `handle_interrupts` returns normally no matter
which handlers raise: every queued handler is invoked exactly once (the
popped entries are a permutation of the queue, which ends empty), and the
handlers that raised are exactly the ones caught and reported, in
invocation order. -/
theorem c5_handler_isolation :
    ∀ (hbeh : Nat → Bool) (q : List IEntry),
      (q.map (·.1)).Nodup →
      HeapInv (fun e : IEntry => e.1) q →
      ∃ pops reported,
        handle_interrupts hbeh q = .ok (pops, reported) ∧
        pops.Perm q ∧
        reported = (pops.filter (fun e => hbeh e.2)).map (·.2) := by
  intro hbeh q hnd hInv
  obtain ⟨pops, heq, hperm, _⟩ :=
    handleLoop_spec hbeh q.length q (le_refl _)
      (cmpOk_of_nodup_priorities q hnd) hInv
  exact ⟨pops, _, heq, hperm, rfl⟩

/-- Witness for C5 (amended): a concrete queue where handler 7 raises. -/
theorem c5_handler_isolation_witness :
    (([(1, 7), (2, 8)] : List IEntry).map (·.1)).Nodup ∧
    HeapInv (fun e : IEntry => e.1) ([(1, 7), (2, 8)] : List IEntry) ∧
    ∃ pops reported,
      handle_interrupts (fun h => h == 7) [(1, 7), (2, 8)] =
        .ok (pops, reported) ∧
      pops.Perm [(1, 7), (2, 8)] ∧
      reported = (pops.filter (fun e => (fun h => h == 7) e.2)).map (·.2) :=
  ⟨by decide, by decide,
   c5_handler_isolation (fun h => h == 7) [(1, 7), (2, 8)]
     (by decide) (by decide)⟩

/-- C8, counterexample: `raise_interrupt` does not always succeed — pushing
priority 1 with handler 11 onto a queue already holding a priority-1 entry
with a different handler raises `TypeError` from the sift's tuple
comparison. -/
theorem c8_counterexample :
    raise_interrupt [(1, 10)] 1 11 = .error "TypeError" := rfl

/-- C8 (amended): `raise_interrupt(priority, handler)` succeeds whenever no
pending entry carries the same priority value: the entry is inserted (the
new queue is a permutation of the old plus the entry, one longer) and the
heap shape is preserved. -/
theorem c8_raise_interrupt_fresh_priority :
    ∀ (q : List IEntry) (priority : Int) (handler : Nat),
      (∀ e ∈ q, e.1 ≠ priority) →
      ∃ q', raise_interrupt q priority handler = .ok q' ∧
        q'.Perm ((priority, handler) :: q) ∧
        q'.length = q.length + 1 ∧
        (HeapInv (fun e : IEntry => e.1) q →
          HeapInv (fun e : IEntry => e.1) q') := by
  intro q priority handler hfresh
  have Hv : ∀ y ∈ q, cmpEntry (priority, handler) y =
      .ok (decide ((fun e : IEntry => e.1) (priority, handler) <
        (fun e : IEntry => e.1) y)) := by
    intro y hy
    have hne := hfresh y hy
    unfold cmpEntry
    by_cases h1 : priority < y.1
    · simp only [if_pos h1]
      simp
      omega
    · rw [if_neg h1, if_pos (by omega)]
      simp
      omega
  exact heappush_spec cmpEntry (fun e : IEntry => e.1) q
    (priority, handler) Hv q (fun x hx => hx)

/-- Witness for C8 (amended) at a concrete queue and fresh priority. -/
theorem c8_raise_interrupt_fresh_priority_witness :
    (∀ e ∈ ([(2, 9)] : List IEntry), e.1 ≠ 1) ∧
    ∃ q', raise_interrupt [(2, 9)] 1 4 = .ok q' ∧
      q'.Perm ((1, 4) :: [(2, 9)]) ∧
      q'.length = ([(2, 9)] : List IEntry).length + 1 ∧
      (HeapInv (fun e : IEntry => e.1) ([(2, 9)] : List IEntry) →
        HeapInv (fun e : IEntry => e.1) q') :=
  ⟨by decide, c8_raise_interrupt_fresh_priority [(2, 9)] 1 4 (by decide)⟩

/-- `add_process` always succeeds and preserves the ready queue's heap
shape, so every scheduler state reachable through `add_process` and
`schedule_next_process` keeps `HeapInv` — justifying the heap-shape
hypothesis used for `schedule_next_process`. -/
theorem add_process_heapInv (s : ProcessScheduler) (p : Process)
    (hInv : HeapInv (fun q : Process => q.priority) s.ready_queue) :
    ∃ p' s', add_process s p = .ok (p', s') ∧
      p' = { p with state := PState.READY } ∧
      s'.ready_queue.Perm
        ({ p with state := PState.READY } :: s.ready_queue) ∧
      s'.running_process = s.running_process ∧
      HeapInv (fun q : Process => q.priority) s'.ready_queue := by
  obtain ⟨rq', hpush, hperm, _, hkeep⟩ :=
    heappush_spec ltProcess (fun q : Process => q.priority)
      ({ p with state := PState.READY } :: s.ready_queue)
      { p with state := PState.READY } (fun y _ => rfl)
      s.ready_queue (fun x hx => List.mem_cons_of_mem _ hx)
  refine ⟨{ p with state := PState.READY },
    { s with ready_queue := rq' }, ?_, rfl, hperm, rfl, hkeep hInv⟩
  unfold add_process
  dsimp only
  rw [hpush, except_bind_ok]
